import Mathlib

/-!
Verification of the WPU basket dashboard core (main_app.py, wpu/processing.py).

Shallow embedding conventions:
* Timestamps are natural numbers counting minutes since the epoch (UTC).
  The fixed resampling resolution of the code is 1 minute, so one unit = one
  slot of the unified index.  pandas floor('D') / ceil('D') become arithmetic
  on multiples of 1440.
* Prices and rates are rationals.  A pandas NaN (missing value) is modelled
  as Option: none = NaN/absent, some q = a present value.  NaN-propagating
  arithmetic is modelled by option-strict add/mul/div.
* A single-series dataframe with columns (datetime, price) is a list of
  (timestamp, price) pairs, in row order.
* Code that raises is modelled with Except: Except.error models an uncaught
  Python exception.
-/

namespace Wpu

/-- A tidy single-series feed: rows of (datetime, price), in dataframe row
order.  Mirrors a pandas frame with columns datetime, price. -/
abbrev Feed := List (ℕ × ℚ)

/-- Minutes in a calendar day; the code's 1-minute master resolution. -/
def minutesPerDay : ℕ := 1440

/-- pandas Timestamp.floor('D') on a minute-resolution timestamp. -/
def floorD (t : ℕ) : ℕ := minutesPerDay * (t / minutesPerDay)

/-- pandas Timestamp.ceil('D') on a minute-resolution timestamp. -/
def ceilD (t : ℕ) : ℕ := minutesPerDay * ((t + (minutesPerDay - 1)) / minutesPerDay)

/-- The datetime column of a feed. -/
def timesOf (df : Feed) : List ℕ := df.map Prod.fst

/-- pandas Series.min over the datetime column (none on an empty frame,
where pandas yields NaT). -/
def minTime (df : Feed) : Option ℕ :=
  match df with
  | [] => none
  | r :: rs => some (rs.foldl (fun a x => min a x.1) r.1)

/-- pandas Series.max over the datetime column. -/
def maxTime (df : Feed) : Option ℕ :=
  match df with
  | [] => none
  | r :: rs => some (rs.foldl (fun a x => max a x.1) r.1)

/-- Python min() over a list of naturals; none models the ValueError raised
on an empty sequence. -/
def listMin (l : List ℕ) : Option ℕ :=
  match l with
  | [] => none
  | x :: xs => some (xs.foldl min x)

/-- Python max() over a list of naturals. -/
def listMax (l : List ℕ) : Option ℕ :=
  match l with
  | [] => none
  | x :: xs => some (xs.foldl max x)

/-- pd.date_range(start, end, freq='1min'), inclusive of both endpoints
(empty when the end precedes the start). -/
def minuteRange (a b : ℕ) : List ℕ := (List.range (b + 1 - a)).map (a + ·)

/-- Value of a forward-fill lookup: the value of the last row (in list
order) whose timestamp is at most t.  On a time-sorted, duplicate-free
frame this is the as-of value pandas ffill/reindex produces. -/
def lastLE (df : Feed) (t : ℕ) : Option ℚ :=
  df.foldl (fun acc r => if r.1 ≤ t then some r.2 else acc) none

/-- daily.set_index('datetime').resample('1min').ffill() — upsample the
daily frame onto a 1-minute index spanning its own min..max datetimes,
forward-filling.  (pandas raises on a non-monotonic or duplicated index;
theorems about the unifier therefore carry sortedness/no-duplicate
hypotheses for the daily input, under which this embedding is exact.) -/
def resample_ffill (df : Feed) : List (ℕ × Option ℚ) :=
  match minTime df, maxTime df with
  | some a, some b => (minuteRange a b).map (fun t => (t, lastLE df t))
  | _, _ => []

/-- One row of the master frame built inside unify_price_series, after the
three left-merges: datetime plus the price_daily, price_minute, price_tick
columns (none = NaN). -/
structure MRow where
  dt : ℕ
  priceDaily : Option ℚ
  priceMinute : Option ℚ
  priceTick : Option ℚ
deriving DecidableEq

/-- master.merge(daily_min[['datetime','price_daily']], on='datetime',
how='left').  The daily_min frame has unique datetimes (one per slot of its
resampled index), so the left merge is a per-row lookup. -/
def mergeDaily (master : List ℕ) (daily_min : List (ℕ × Option ℚ)) : List MRow :=
  master.map (fun t =>
    { dt := t
      priceDaily := (daily_min.find? (fun r => r.1 == t)).bind Prod.snd
      priceMinute := none
      priceTick := none })

/-- master.merge(minute[['datetime','price_minute']], on='datetime',
how='left').  A left merge keeps one output row per matching right row —
duplicate timestamps in the right frame multiply rows — and fills NaN when
there is no match. -/
def mergeMinute (rows : List MRow) (minute : Feed) : List MRow :=
  rows.flatMap (fun row =>
    let ms := minute.filter (fun r => r.1 == row.dt)
    if ms.isEmpty then [{ row with priceMinute := none }]
    else ms.map (fun r => { row with priceMinute := some r.2 }))

/-- master.merge(tick[['datetime','price_tick']], on='datetime', how='left'). -/
def mergeTick (rows : List MRow) (tick : Feed) : List MRow :=
  rows.flatMap (fun row =>
    let ms := tick.filter (fun r => r.1 == row.dt)
    if ms.isEmpty then [{ row with priceTick := none }]
    else ms.map (fun r => { row with priceTick := some r.2 }))

/-- master['price'] = price_tick.combine_first(price_minute).combine_first(price_daily). -/
def composePrice (rows : List MRow) : List (ℕ × Option ℚ) :=
  rows.map (fun r =>
    (r.dt, (r.priceTick.orElse (fun _ => r.priceMinute)).orElse (fun _ => r.priceDaily)))

/-- master[['datetime','price']].dropna() — drop the rows whose price is NaN. -/
def dropna (rows : List (ℕ × Option ℚ)) : Feed :=
  rows.filterMap (fun r => r.2.map (fun p => (r.1, p)))

/-- unify_price_series (main_app.py): build a 1-minute master index from
floor('D') of the overall min datetime to ceil('D') of the overall max
datetime over the non-empty inputs, left-merge the daily (resampled and
forward-filled), minute and tick frames onto it, compose the price with
tick-over-minute-over-daily precedence, and drop NaN rows.  When all three
inputs are empty the Python min() call on an empty generator raises
ValueError, modelled as Except.error. -/
def unify_price_series (daily minute tick : Feed) : Except String Feed :=
  match listMin ([daily, minute, tick].filterMap minTime),
        listMax ([daily, minute, tick].filterMap maxTime) with
  | some min_dt, some max_dt =>
      let master := minuteRange (floorD min_dt) (ceilD max_dt)
      let daily_min := resample_ffill daily
      let rows := mergeTick (mergeMinute (mergeDaily master daily_min) minute) tick
      .ok (dropna (composePrice rows))
  | _, _ => .error "min() arg is an empty sequence"

/-- The rows of a list of timestamped pairs carrying a given timestamp, in
row order (used to state properties about slots of a frame). -/
def pairsAt {α : Type} (t : ℕ) (l : List (ℕ × α)) : List (ℕ × α) :=
  l.filter (fun r => r.1 == t)

/-- The value a frame holds at a timestamp: the price of the first row with
that datetime (none when the timestamp is absent). -/
def lookupTime (df : Feed) (t : ℕ) : Option ℚ :=
  (df.find? (fun r => r.1 == t)).map Prod.snd

/-- The as-of daily value of the merged price_daily column at a slot:
defined only between the daily input's own min and max datetimes (the span
of its resampled index), where it is the forward-filled daily value. -/
def dailyAt (daily : Feed) (t : ℕ) : Option ℚ :=
  match minTime daily, maxTime daily with
  | some a, some b => if a ≤ t ∧ t ≤ b then lastLE daily t else none
  | _, _ => none

/-- The value the unifier's precedence rule assigns to a slot: tick value
if present, else minute value, else the forward-filled daily value. -/
def combineAt (daily minute tick : Feed) (t : ℕ) : Option ℚ :=
  ((lookupTime tick t).orElse (fun _ => lookupTime minute t)).orElse
    (fun _ => dailyAt daily t)

/-- filter_by_range (main_app.py): slice the frame to a window anchored at
the frame's own maximum datetime.  Month/year labels use fixed day counts
(30, 90, 182, 365, 3*365, 5*365, 10*365 days); 'Prior Day' normalizes the
latest datetime to midnight; unrecognized labels fall back to the full
span.  An empty frame yields an empty result (all NaN comparisons are
False in pandas). -/
def filter_by_range (df : Feed) (range_label : String) : Feed :=
  match maxTime df with
  | none => []
  | some now =>
      let se : ℕ × ℕ :=
        if range_label = "Prior Day" then (floorD now - minutesPerDay, floorD now)
        else if range_label = "1d" then (now - minutesPerDay, now)
        else if range_label = "5d" then (now - 5 * minutesPerDay, now)
        else if range_label = "1w" then (now - 7 * minutesPerDay, now)
        else if range_label = "1m" then (now - 30 * minutesPerDay, now)
        else if range_label = "3m" then (now - 90 * minutesPerDay, now)
        else if range_label = "6m" then (now - 182 * minutesPerDay, now)
        else if range_label = "1y" then (now - 365 * minutesPerDay, now)
        else if range_label = "3y" then (now - 365 * 3 * minutesPerDay, now)
        else if range_label = "5y" then (now - 365 * 5 * minutesPerDay, now)
        else if range_label = "10y" then (now - 365 * 10 * minutesPerDay, now)
        else ((minTime df).getD now, now)
      df.filter (fun r => decide (se.1 ≤ r.1) && decide (r.1 ≤ se.2))

/-- Modelled from the spec (section 4.4 contract): the same range filter
with the reference time as an explicit parameter, for stating that the
code's filter equals this one applied at the series' own maximum
timestamp. -/
def filter_by_range_ref (df : Feed) (range_label : String) (reference : ℕ) : Feed :=
  let now := reference
  let se : ℕ × ℕ :=
    if range_label = "Prior Day" then (floorD now - minutesPerDay, floorD now)
    else if range_label = "1d" then (now - minutesPerDay, now)
    else if range_label = "5d" then (now - 5 * minutesPerDay, now)
    else if range_label = "1w" then (now - 7 * minutesPerDay, now)
    else if range_label = "1m" then (now - 30 * minutesPerDay, now)
    else if range_label = "3m" then (now - 90 * minutesPerDay, now)
    else if range_label = "6m" then (now - 182 * minutesPerDay, now)
    else if range_label = "1y" then (now - 365 * minutesPerDay, now)
    else if range_label = "3y" then (now - 365 * 3 * minutesPerDay, now)
    else if range_label = "5y" then (now - 365 * 5 * minutesPerDay, now)
    else if range_label = "10y" then (now - 365 * 10 * minutesPerDay, now)
    else ((minTime df).getD now, now)
  df.filter (fun r => decide (se.1 ≤ r.1) && decide (r.1 ≤ se.2))

/-- Gregorian leap-year test. -/
def isLeap (y : ℕ) : Bool := (y % 4 == 0 && y % 100 != 0) || y % 400 == 0

/-- Days in a Gregorian month. -/
def daysInMonth (y m : ℕ) : ℕ :=
  if m = 2 then (if isLeap y then 29 else 28)
  else if m = 4 ∨ m = 6 ∨ m = 9 ∨ m = 11 then 30
  else 31

/-- Days in a Gregorian year. -/
def daysInYear (y : ℕ) : ℕ := if isLeap y then 366 else 365

/-- Days from 1970-01-01 to the start of year y (for y at or after 1970). -/
def daysBeforeYear (y : ℕ) : ℕ :=
  ((List.range (y - 1970)).map (fun i => daysInYear (1970 + i))).sum

/-- Days from the start of year y to the start of month m. -/
def daysBeforeMonth (y m : ℕ) : ℕ :=
  ((List.range (m - 1)).map (fun i => daysInMonth y (1 + i))).sum

/-- Minutes since the epoch of the calendar instant y-m-d 00:00 UTC. -/
def civilToMin (y m d : ℕ) : ℕ :=
  minutesPerDay * (daysBeforeYear y + daysBeforeMonth y m + (d - 1))

/-- Resolve a day count to (year, day-of-year), scanning forward from the
given year; structural recursion on a fuel argument (each step consumes at
least 365 days, so any fuel of at least days / 365 + 1 completes the
scan). -/
def yearFromDays : ℕ → ℕ → ℕ → ℕ × ℕ
  | 0, y, days => (y, days)
  | fuel + 1, y, days =>
      if days < daysInYear y then (y, days)
      else yearFromDays fuel (y + 1) (days - daysInYear y)

/-- Resolve a day-of-year to (month, day-of-month minus one), scanning
forward from the given month with fuel. -/
def monthFromDoy : ℕ → ℕ → ℕ → ℕ → ℕ × ℕ
  | 0, _, m, doy => (m, doy)
  | fuel + 1, y, m, doy =>
      if doy < daysInMonth y m then (m, doy)
      else monthFromDoy fuel y (m + 1) (doy - daysInMonth y m)

/-- Minutes since the epoch to the calendar tuple (year, month, day,
minute-of-day). -/
def civilFromMin (t : ℕ) : ℕ × ℕ × ℕ × ℕ :=
  let days := t / minutesPerDay
  let ym := yearFromDays (days / 365 + 1) 1970 days
  let md := monthFromDoy 12 ym.1 1 ym.2
  (ym.1, md.1, md.2 + 1, t % minutesPerDay)

/-- pandas Timestamp minus pd.DateOffset(months=n): same day-of-month n
calendar months earlier, clamped at month-end boundaries, keeping the
time of day. -/
def monthsAgo (n t : ℕ) : ℕ :=
  match civilFromMin t with
  | (y, m, d, tod) =>
      let total := (y * 12 + (m - 1)) - n
      let y2 := total / 12
      let m2 := total % 12 + 1
      civilToMin y2 m2 (min d (daysInMonth y2 m2)) + tod

/-- pandas Timestamp minus pd.DateOffset(years=n): same calendar date n
years earlier, with Feb 29 clamped to Feb 28 in a non-leap year. -/
def yearsAgo (n t : ℕ) : ℕ :=
  match civilFromMin t with
  | (y, m, d, tod) =>
      civilToMin (y - n) m (min d (daysInMonth (y - n) m)) + tod

/-- Python str.endswith. -/
def strEndsWith (s suf : String) : Bool := List.isSuffixOf suf.data s.data

/-- Python s[:-1]. -/
def strDropLast (s : String) : String := String.mk s.data.dropLast

/-- Decimal digit value of a character, none for a non-digit. -/
def digitVal (c : Char) : Option ℕ :=
  if 48 ≤ c.toNat ∧ c.toNat ≤ 57 then some (c.toNat - 48) else none

/-- Python int(s) for a nonnegative decimal literal; none models the
ValueError int() raises on anything else. -/
def parseNat (s : String) : Option ℕ :=
  match s.data with
  | [] => none
  | cs => cs.foldl (fun acc c =>
      match acc, digitVal c with
      | some a, some d => some (10 * a + d)
      | _, _ => none) (some 0)

/-- filter_by_zoom (wpu/processing.py): keep the rows at or after a start
computed from the wall-clock current time (passed here explicitly as the
now argument): fixed-length windows for day/week counts, calendar-unit
subtraction (pd.DateOffset) for month/year counts, full span otherwise.
There is no upper bound on the window.  An unparsable count is the int()
ValueError. -/
def filter_by_zoom (df : Feed) (zoom : String) (now : ℕ) : Except String Feed :=
  if df.isEmpty then .ok df
  else
    let start? : Except String ℕ :=
      if strEndsWith zoom "d" then
        match parseNat (strDropLast zoom) with
        | some n => .ok (now - n * minutesPerDay)
        | none => .error "invalid literal for int()"
      else if strEndsWith zoom "w" then
        match parseNat (strDropLast zoom) with
        | some n => .ok (now - n * 7 * minutesPerDay)
        | none => .error "invalid literal for int()"
      else if strEndsWith zoom "m" then
        match parseNat (strDropLast zoom) with
        | some n => .ok (monthsAgo n now)
        | none => .error "invalid literal for int()"
      else if strEndsWith zoom "y" then
        match parseNat (strDropLast zoom) with
        | some n => .ok (yearsAgo n now)
        | none => .error "invalid literal for int()"
      else .ok ((minTime df).getD 0)
    start?.map (fun start => df.filter (fun r => decide (start ≤ r.1)))

/-- The cells of one row of a currency-keyed frame: association list from
currency-code column name to cell value (none = NaN cell). -/
abbrev Cells := List (String × Option ℚ)

/-- A currency-keyed dataframe: a datetime column (frame-level timezone
tag: none = naive, some z = tz-aware in zone z), the currency column
names, and the rows (datetime, cells) in row order. -/
structure CFrame where
  tz : Option String
  cols : List String
  rows : List (ℕ × Cells)
deriving DecidableEq

/-- df['datetime'].dt.tz_localize(tz) applied in place when the column is
naive (the code's mutation of its caller's frame).  pandas raises
UnknownTimeZoneError for an unrecognized zone string (such as the
function's default 'NYC') before any assignment, so this embedding covers
calls with a valid zone name; the tz-aware hypotheses of the pricer
theorems make the localization a no-op in any case. -/
def localizeIfNaive (f : CFrame) (tz : String) : CFrame :=
  if f.tz = none then { f with tz := some tz } else f

/-- Insert a row into a time-sorted list of rows. -/
def insertRow {α : Type} (p : ℕ × α) : List (ℕ × α) → List (ℕ × α)
  | [] => [p]
  | q :: qs => if p.1 < q.1 then p :: q :: qs else q :: insertRow p qs

/-- DataFrame.sort_index(): sort rows by their datetime key. -/
def sortRows {α : Type} : List (ℕ × α) → List (ℕ × α)
  | [] => []
  | p :: ps => insertRow p (sortRows ps)

/-- The row produced for one target timestamp by
weights.reindex(exchange_datetimes, method='ffill'): the cells of the last
row (in list order) whose datetime is at most t, none (an all-NaN row)
when no such row exists.  On the sorted, duplicate-free index pandas
requires, this is the as-of row. -/
def reindexFfillAt {α : Type} (rows : List (ℕ × α)) (t : ℕ) : Option α :=
  rows.foldl (fun acc r => if r.1 ≤ t then some r.2 else acc) none

/-- Cell of a row for a column: none when the column is missing from the
cells or the cell is NaN. -/
def cellVal (cells : Cells) (c : String) : Option ℚ :=
  (cells.lookup c).join

/-- NaN-propagating addition (pandas: x + NaN = NaN). -/
def oAdd (a b : Option ℚ) : Option ℚ :=
  match a, b with
  | some x, some y => some (x + y)
  | _, _ => none

/-- NaN-propagating multiplication. -/
def oMul (a b : Option ℚ) : Option ℚ :=
  match a, b with
  | some x, some y => some (x * y)
  | _, _ => none

/-- NaN-propagating division by 100. -/
def oDiv100 (a : Option ℚ) : Option ℚ := a.map (fun x => x / 100)

/-- calculate_wpu_price (wpu/processing.py).  Returns the result frame
(datetime, price with none = NaN) together with the post-call state of the
two input frames: the code localizes a naive datetime column in place, so
the caller's frames may come back changed.  currencies defaults to all
weight-table columns; the weights are sorted by datetime and reindexed
with forward fill onto the exchange datetimes; the price starts at 0 and
accumulates rate * weight / 100 for each selected currency present in
both frames' columns. -/
def calculate_wpu_price (exchange_df weights_df : CFrame)
    (currencies : Option (List String)) (tz : String) :
    List (ℕ × Option ℚ) × CFrame × CFrame :=
  let curs := currencies.getD weights_df.cols
  let ex := localizeIfNaive exchange_df tz
  let w := localizeIfNaive weights_df tz
  let wsorted := sortRows w.rows
  let result := ex.rows.map (fun r =>
    let wrow := reindexFfillAt wsorted r.1
    let price := curs.foldl (fun acc c =>
      if c ∈ ex.cols ∧ c ∈ w.cols then
        oAdd acc (oDiv100 (oMul (cellVal r.2 c) (wrow.bind (fun cs => cellVal cs c))))
      else acc) (some 0)
    (r.1, price))
  (result, ex, w)

/-- One entry of the paper-trading ledger (main_app.py session state). -/
structure LedgerEntry where
  ts : String
  side : String
  amount : ℚ
  price : ℚ
  cash_after : ℚ
  wpu_after : ℚ
deriving DecidableEq

/-- The presentation shell's session state: WPU holdings, cash balance and
the append-only trade ledger. -/
structure SessionState where
  wpu_balance : ℚ
  cash_balance : ℚ
  ledger : List LedgerEntry
deriving DecidableEq

/-- The Buy button handler: reject (state unchanged, false) when the cost
amt * latest_price exceeds the cash balance, otherwise debit cash, credit
holdings and append a BUY ledger entry. -/
def buy_handler (s : SessionState) (amt latest_price : ℚ) (ts : String) :
    SessionState × Bool :=
  let cost := amt * latest_price
  if cost > s.cash_balance then (s, false)
  else
    let cash2 := s.cash_balance - cost
    let wpu2 := s.wpu_balance + amt
    ({ wpu_balance := wpu2
       cash_balance := cash2
       ledger := s.ledger ++ [⟨ts, "BUY", amt, latest_price, cash2, wpu2⟩] }, true)

/-- The Sell button handler: reject (state unchanged, false) when the
requested amount exceeds the WPU holdings, otherwise credit the proceeds,
debit holdings and append a SELL ledger entry. -/
def sell_handler (s : SessionState) (amt latest_price : ℚ) (ts : String) :
    SessionState × Bool :=
  if amt > s.wpu_balance then (s, false)
  else
    let proceeds := amt * latest_price
    let cash2 := s.cash_balance + proceeds
    let wpu2 := s.wpu_balance - amt
    ({ wpu_balance := wpu2
       cash_balance := cash2
       ledger := s.ledger ++ [⟨ts, "SELL", amt, latest_price, cash2, wpu2⟩] }, true)

/-- Time-sortedness of a frame's rows (non-strict, dataframe row order). -/
def sortedTimes {α : Type} (l : List (ℕ × α)) : Prop :=
  l.Pairwise (fun a b => a.1 ≤ b.1)

/-- No two rows of a frame share a timestamp. -/
def nodupTimes {α : Type} (l : List (ℕ × α)) : Prop :=
  (l.map Prod.fst).Nodup

instance {α : Type} (l : List (ℕ × α)) : Decidable (sortedTimes l) := by
  unfold sortedTimes; infer_instance

instance {α : Type} (l : List (ℕ × α)) : Decidable (nodupTimes l) := by
  unfold nodupTimes; infer_instance

/-- Rows of an MRow list at a given slot. -/
def rowsAt (t : ℕ) (rows : List MRow) : List MRow :=
  rows.filter (fun r => r.dt == t)

theorem mem_minuteRange {a b t : ℕ} : t ∈ minuteRange a b ↔ a ≤ t ∧ t ≤ b := by
  simp only [minuteRange, List.mem_map, List.mem_range]
  constructor
  · rintro ⟨i, hi, rfl⟩
    omega
  · rintro ⟨h1, h2⟩
    exact ⟨t - a, by omega, by omega⟩

theorem nodup_minuteRange (a b : ℕ) : (minuteRange a b).Nodup :=
  (List.nodup_range _).map (fun _ _ h => by omega)

theorem floorD_le (t : ℕ) : floorD t ≤ t := by
  have := Nat.div_mul_le_self t minutesPerDay
  simpa [floorD, Nat.mul_comm] using this

theorem le_ceilD (t : ℕ) : t ≤ ceilD t := by
  have h := Nat.div_add_mod (t + (minutesPerDay - 1)) minutesPerDay
  have hlt : (t + (minutesPerDay - 1)) % minutesPerDay < minutesPerDay :=
    Nat.mod_lt _ (by simp [minutesPerDay])
  simp only [ceilD]
  simp only [minutesPerDay] at h hlt ⊢
  omega

theorem listMin_le {l : List ℕ} {v : ℕ} (h : listMin l = some v) :
    ∀ x ∈ l, v ≤ x := by
  match l with
  | [] => simp [listMin] at h
  | x :: xs =>
    simp only [listMin, Option.some.injEq] at h
    subst h
    intro y hy
    have key : ∀ (ys : List ℕ) (a : ℕ), ys.foldl min a ≤ a ∧ ∀ z ∈ ys, ys.foldl min a ≤ z := by
      intro ys
      induction ys with
      | nil => simp
      | cons z zs ih =>
        intro a
        refine ⟨le_trans (ih (min a z)).1 (min_le_left _ _), ?_⟩
        intro u hu
        rcases List.mem_cons.mp hu with rfl | hu
        · exact le_trans (ih (min a u)).1 (min_le_right _ _)
        · exact (ih (min a z)).2 u hu
    rcases List.mem_cons.mp hy with rfl | hy
    · exact (key xs y).1
    · exact (key xs x).2 y hy

theorem le_listMax {l : List ℕ} {v : ℕ} (h : listMax l = some v) :
    ∀ x ∈ l, x ≤ v := by
  match l with
  | [] => simp [listMax] at h
  | x :: xs =>
    simp only [listMax, Option.some.injEq] at h
    subst h
    intro y hy
    have key : ∀ (ys : List ℕ) (a : ℕ), a ≤ ys.foldl max a ∧ ∀ z ∈ ys, z ≤ ys.foldl max a := by
      intro ys
      induction ys with
      | nil => simp
      | cons z zs ih =>
        intro a
        refine ⟨le_trans (le_max_left _ _) (ih (max a z)).1, ?_⟩
        intro u hu
        rcases List.mem_cons.mp hu with rfl | hu
        · exact le_trans (le_max_right _ _) (ih (max a u)).1
        · exact (ih (max a z)).2 u hu
    rcases List.mem_cons.mp hy with rfl | hy
    · exact (key xs y).1
    · exact (key xs x).2 y hy

theorem minTime_le {df : Feed} {a : ℕ} (h : minTime df = some a) :
    ∀ u ∈ timesOf df, a ≤ u := by
  have : listMin (timesOf df) = some a := by
    match df with
    | [] => simp [minTime] at h
    | r :: rs => simpa [minTime, listMin, timesOf, List.foldl_map] using h
  exact listMin_le this

theorem le_maxTime {df : Feed} {b : ℕ} (h : maxTime df = some b) :
    ∀ u ∈ timesOf df, u ≤ b := by
  have : listMax (timesOf df) = some b := by
    match df with
    | [] => simp [maxTime] at h
    | r :: rs => simpa [maxTime, listMax, timesOf, List.foldl_map] using h
  exact le_listMax this

theorem minTime_isSome {df : Feed} (h : df ≠ []) : ∃ a, minTime df = some a := by
  match df with
  | [] => exact absurd rfl h
  | r :: rs => exact ⟨_, rfl⟩

theorem maxTime_isSome {df : Feed} (h : df ≠ []) : ∃ b, maxTime df = some b := by
  match df with
  | [] => exact absurd rfl h
  | r :: rs => exact ⟨_, rfl⟩

theorem mem_pairsAt {α : Type} {t : ℕ} {l : List (ℕ × α)} {r : ℕ × α} :
    r ∈ pairsAt t l ↔ r ∈ l ∧ r.1 = t := by
  simp [pairsAt, List.mem_filter]

theorem pairsAt_fst {α : Type} {t : ℕ} {l : List (ℕ × α)} {r : ℕ × α}
    (h : r ∈ pairsAt t l) : r.1 = t := (mem_pairsAt.mp h).2

theorem lookupTime_eq_head_pairsAt (df : Feed) (t : ℕ) :
    lookupTime df t = (pairsAt t df).head?.map Prod.snd := by
  induction df with
  | nil => rfl
  | cons r rs ih =>
    by_cases h : r.1 = t
    · simp [lookupTime, pairsAt, List.find?, List.filter, h]
    · simp only [lookupTime, pairsAt, List.find?, List.filter] at ih ⊢
      rw [show (r.1 == t) = false by simpa using h]
      exact ih

theorem filter_beq_singleton {l : List ℕ} {t : ℕ} (hnd : l.Nodup) (hm : t ∈ l) :
    l.filter (fun s => s == t) = [t] := by
  induction l with
  | nil => simp at hm
  | cons x xs ih =>
    rcases List.nodup_cons.mp hnd with ⟨hx, hxs⟩
    by_cases hxt : x = t
    · subst hxt
      rw [List.filter_cons_of_pos (by simp)]
      have hnil : xs.filter (fun s => s == x) = [] :=
        List.filter_eq_nil_iff.mpr (fun s hs hst =>
          hx (by rwa [show s = x by simpa using hst] at hs))
      rw [hnil]
    · rw [List.filter_cons_of_neg (by simpa using hxt)]
      have hm2 : t ∈ xs := by
        rcases List.mem_cons.mp hm with rfl | h
        · exact absurd rfl hxt
        · exact h
      exact ih hxs hm2

theorem pairsAt_of_nodup {α : Type} {l : List (ℕ × α)} (hn : nodupTimes l) (t : ℕ) :
    pairsAt t l = [] ∨ ∃ p, pairsAt t l = [(t, p)] := by
  induction l with
  | nil => exact Or.inl rfl
  | cons r rs ih =>
    have hn2 : nodupTimes rs := (List.nodup_cons.mp hn).2
    have hnm : r.1 ∉ rs.map Prod.fst := (List.nodup_cons.mp hn).1
    by_cases h : r.1 = t
    · right
      refine ⟨r.2, ?_⟩
      have hrest : rs.filter (fun x => x.1 == t) = [] := by
        apply List.filter_eq_nil_iff.mpr
        intro x hx hxt
        apply hnm
        rw [h, ← show x.1 = t by simpa using hxt]
        exact List.mem_map_of_mem Prod.fst hx
      have hr : r = (t, r.2) := Prod.ext h rfl
      unfold pairsAt
      rw [List.filter_cons_of_pos (by simpa using h), hrest, ← hr]
    · have heq : pairsAt t (r :: rs) = pairsAt t rs := by
        unfold pairsAt
        rw [List.filter_cons_of_neg (by simpa using h)]
      rw [heq]
      exact ih hn2

theorem lookupTime_of_mem_nodup {df : Feed} (hn : nodupTimes df) {t : ℕ} {p : ℚ}
    (h : (t, p) ∈ df) : lookupTime df t = some p := by
  rcases pairsAt_of_nodup hn t with h0 | ⟨q, hq⟩
  · exact absurd (mem_pairsAt.mpr ⟨h, rfl⟩) (by simp [h0])
  · have hmem : (t, p) ∈ pairsAt t df := mem_pairsAt.mpr ⟨h, rfl⟩
    rw [hq] at hmem
    simp only [List.mem_singleton, Prod.mk.injEq] at hmem
    rw [lookupTime_eq_head_pairsAt, hq, hmem.2]
    rfl

theorem mem_of_lookupTime {df : Feed} {t : ℕ} {p : ℚ}
    (h : lookupTime df t = some p) : (t, p) ∈ df := by
  unfold lookupTime at h
  rcases Option.map_eq_some'.mp h with ⟨r, hr, hsnd⟩
  have hmem := List.mem_of_find?_eq_some hr
  have hfst : r.1 = t := by simpa using List.find?_some hr
  rwa [show r = (t, p) from Prod.ext hfst hsnd] at hmem

theorem lookupTime_eq_none_of_not_mem {df : Feed} {t : ℕ}
    (h : t ∉ timesOf df) : lookupTime df t = none := by
  unfold lookupTime
  apply Option.map_eq_none'.mpr
  apply List.find?_eq_none.mpr
  intro r hr hrt
  apply h
  rw [← show r.1 = t by simpa using hrt]
  exact List.mem_map_of_mem Prod.fst hr

theorem daily_min_lookup (daily : Feed) (t : ℕ) :
    ((resample_ffill daily).find? (fun r => r.1 == t)).bind Prod.snd = dailyAt daily t := by
  unfold resample_ffill dailyAt
  cases hmin : minTime daily with
  | none => rfl
  | some a =>
    cases hmax : maxTime daily with
    | none => rfl
    | some b =>
      rw [List.find?_map]
      by_cases hab : a ≤ t ∧ t ≤ b
      · have hmem : t ∈ minuteRange a b := mem_minuteRange.mpr hab
        have hfind : (minuteRange a b).find? ((fun r => r.1 == t) ∘ fun s => (s, lastLE daily s))
            = some t := by
          have hsome : ((minuteRange a b).find? (fun s => s == t)).isSome = true :=
            List.find?_isSome.mpr ⟨t, hmem, by simp⟩
          cases hf : (minuteRange a b).find? (fun s => s == t) with
          | none => rw [hf] at hsome; simp at hsome
          | some s =>
            have hst : s = t := by simpa using List.find?_some hf
            rw [hst] at hf
            exact hf
        rw [hfind]
        simp [hab]
      · have hfind : (minuteRange a b).find? ((fun r => r.1 == t) ∘ fun s => (s, lastLE daily s))
            = none := by
          apply List.find?_eq_none.mpr
          intro s hs hst
          exact hab (by
            rw [← show s = t by simpa using hst]
            exact mem_minuteRange.mp hs)
        rw [hfind]
        simp [hab]

theorem rowsAt_mergeDaily {master : List ℕ} {dm : List (ℕ × Option ℚ)} {t : ℕ}
    (hnd : master.Nodup) (hm : t ∈ master) :
    rowsAt t (mergeDaily master dm) =
      [{ dt := t, priceDaily := (dm.find? (fun r => r.1 == t)).bind Prod.snd,
         priceMinute := none, priceTick := none }] := by
  unfold rowsAt mergeDaily
  rw [List.filter_map, show (master.filter ((fun r => r.dt == t) ∘ fun s =>
      ({ dt := s, priceDaily := (dm.find? (fun r => r.1 == s)).bind Prod.snd,
         priceMinute := none, priceTick := none } : MRow))) = master.filter (fun s => s == t)
      from rfl, filter_beq_singleton hnd hm]
  rfl

theorem rowsAt_mergeDaily_of_not_mem {master : List ℕ} {dm : List (ℕ × Option ℚ)} {t : ℕ}
    (hm : t ∉ master) : rowsAt t (mergeDaily master dm) = [] := by
  unfold rowsAt mergeDaily
  rw [List.filter_map]
  have hnil : (master.filter ((fun r => r.dt == t) ∘ fun s =>
      ({ dt := s, priceDaily := (dm.find? (fun r => r.1 == s)).bind Prod.snd,
         priceMinute := none, priceTick := none } : MRow))) = [] := by
    apply List.filter_eq_nil_iff.mpr
    intro s hs hst
    exact hm (by rwa [show s = t by simpa using hst] at hs)
  rw [hnil]
  rfl

theorem rowsAt_flatMap {t : ℕ} {rows : List MRow} {g : MRow → List MRow}
    (hg : ∀ row r, r ∈ g row → r.dt = row.dt) :
    rowsAt t (rows.flatMap g) = (rowsAt t rows).flatMap g := by
  induction rows with
  | nil => rfl
  | cons a rs ih =>
    rw [List.flatMap_cons]
    unfold rowsAt at ih ⊢
    rw [List.filter_append]
    by_cases h : a.dt = t
    · rw [List.filter_cons_of_pos (by simpa using h), List.flatMap_cons]
      congr 1
      exact List.filter_eq_self.mpr (fun r hr => by simpa using (hg a r hr).trans h)
    · rw [List.filter_cons_of_neg (by simpa using h)]
      have hnil : (g a).filter (fun r => r.dt == t) = [] :=
        List.filter_eq_nil_iff.mpr (fun r hr hrt => h (by
          rw [← hg a r hr]
          simpa using hrt))
      rw [hnil, List.nil_append]
      exact ih

theorem mergeMinute_dt {minute : Feed} {row r : MRow}
    (h : r ∈ (fun row => (fun ms =>
        if ms.isEmpty then [{ row with priceMinute := none }]
        else ms.map (fun x => { row with priceMinute := some x.2 }))
      (minute.filter (fun x => x.1 == row.dt))) row) : r.dt = row.dt := by
  simp only at h
  split at h
  · simp only [List.mem_singleton] at h
    rw [h]
  · rcases List.mem_map.mp h with ⟨x, _, hx⟩
    rw [← hx]

theorem mergeTick_dt {tick : Feed} {row r : MRow}
    (h : r ∈ (fun row => (fun ms =>
        if ms.isEmpty then [{ row with priceTick := none }]
        else ms.map (fun x => { row with priceTick := some x.2 }))
      (tick.filter (fun x => x.1 == row.dt))) row) : r.dt = row.dt := by
  simp only at h
  split at h
  · simp only [List.mem_singleton] at h
    rw [h]
  · rcases List.mem_map.mp h with ⟨x, _, hx⟩
    rw [← hx]

theorem rowsAt_mergeMinute_single {rows : List MRow} {minute : Feed} {t : ℕ} {row0 : MRow}
    (hrows : rowsAt t rows = [row0]) (hdt : row0.dt = t) (hn : nodupTimes minute) :
    rowsAt t (mergeMinute rows minute) =
      [{ row0 with priceMinute := lookupTime minute t }] := by
  unfold mergeMinute
  rw [rowsAt_flatMap (fun row r h => mergeMinute_dt h), hrows]
  simp only [List.flatMap_cons, List.flatMap_nil, List.append_nil, hdt]
  rcases pairsAt_of_nodup hn t with h0 | ⟨pm, hpm⟩
  · have hlook : lookupTime minute t = none := by
      rw [lookupTime_eq_head_pairsAt, h0]
      rfl
    unfold pairsAt at h0
    rw [h0, hlook]
    rfl
  · have hlook : lookupTime minute t = some pm := by
      rw [lookupTime_eq_head_pairsAt, hpm]
      rfl
    unfold pairsAt at hpm
    rw [hpm, hlook]
    rfl

theorem rowsAt_mergeTick_single {rows : List MRow} {tick : Feed} {t : ℕ} {row0 : MRow}
    (hrows : rowsAt t rows = [row0]) (hdt : row0.dt = t) (hn : nodupTimes tick) :
    rowsAt t (mergeTick rows tick) =
      [{ row0 with priceTick := lookupTime tick t }] := by
  unfold mergeTick
  rw [rowsAt_flatMap (fun row r h => mergeTick_dt h), hrows]
  simp only [List.flatMap_cons, List.flatMap_nil, List.append_nil, hdt]
  rcases pairsAt_of_nodup hn t with h0 | ⟨pk, hpk⟩
  · have hlook : lookupTime tick t = none := by
      rw [lookupTime_eq_head_pairsAt, h0]
      rfl
    unfold pairsAt at h0
    rw [h0, hlook]
    rfl
  · have hlook : lookupTime tick t = some pk := by
      rw [lookupTime_eq_head_pairsAt, hpk]
      rfl
    unfold pairsAt at hpk
    rw [hpk, hlook]
    rfl

theorem rowsAt_mergeTick_dups {rows : List MRow} {tick : Feed} {t : ℕ} {row0 : MRow}
    (hrows : rowsAt t rows = [row0]) (hne : pairsAt t tick ≠ []) :
    rowsAt t (mergeTick rows tick) =
      (pairsAt t tick).map (fun r => { row0 with priceTick := some r.2 }) := by
  unfold mergeTick
  rw [rowsAt_flatMap (fun row r h => mergeTick_dt h), hrows]
  have hdt : row0.dt = t := by
    have hmem : row0 ∈ rowsAt t rows := by
      rw [hrows]
      exact List.mem_singleton.mpr rfl
    unfold rowsAt at hmem
    simpa using (List.mem_filter.mp hmem).2
  simp only [List.flatMap_cons, List.flatMap_nil, List.append_nil, hdt]
  unfold pairsAt at hne ⊢
  rw [if_neg (by simpa [List.isEmpty_iff] using hne)]

theorem rowsAt_mergeMinute_nil {rows : List MRow} {minute : Feed} {t : ℕ}
    (hrows : rowsAt t rows = []) : rowsAt t (mergeMinute rows minute) = [] := by
  unfold mergeMinute
  rw [rowsAt_flatMap (fun row r h => mergeMinute_dt h), hrows]
  rfl

theorem rowsAt_mergeTick_nil {rows : List MRow} {tick : Feed} {t : ℕ}
    (hrows : rowsAt t rows = []) : rowsAt t (mergeTick rows tick) = [] := by
  unfold mergeTick
  rw [rowsAt_flatMap (fun row r h => mergeTick_dt h), hrows]
  rfl

theorem pairsAt_composePrice (rows : List MRow) (t : ℕ) :
    pairsAt t (composePrice rows) =
      (rowsAt t rows).map (fun r =>
        (r.dt, (r.priceTick.orElse (fun _ => r.priceMinute)).orElse (fun _ => r.priceDaily))) := by
  unfold pairsAt composePrice rowsAt
  rw [List.filter_map]
  rfl

theorem pairsAt_dropna (l : List (ℕ × Option ℚ)) (t : ℕ) :
    pairsAt t (dropna l) = dropna (pairsAt t l) := by
  induction l with
  | nil => rfl
  | cons r rs ih =>
    unfold dropna pairsAt at ih ⊢
    cases hr2 : r.2 with
    | none =>
      by_cases h : r.1 = t <;>
        simp [List.filterMap_cons, List.filter_cons, hr2, h, ih]
    | some p =>
      by_cases h : r.1 = t <;>
        simp [List.filterMap_cons, List.filter_cons, hr2, h, ih]

theorem unify_ok_elim {daily minute tick out : Feed}
    (h : unify_price_series daily minute tick = .ok out) :
    ∃ mn mx, listMin ([daily, minute, tick].filterMap minTime) = some mn ∧
      listMax ([daily, minute, tick].filterMap maxTime) = some mx ∧
      out = dropna (composePrice (mergeTick (mergeMinute
        (mergeDaily (minuteRange (floorD mn) (ceilD mx)) (resample_ffill daily)) minute) tick)) := by
  unfold unify_price_series at h
  cases hmn : listMin ([daily, minute, tick].filterMap minTime) with
  | none => rw [hmn] at h; cases hmx : listMax ([daily, minute, tick].filterMap maxTime) <;>
      rw [hmx] at h <;> exact absurd h (by simp)
  | some mn =>
    cases hmx : listMax ([daily, minute, tick].filterMap maxTime) with
    | none => rw [hmn, hmx] at h; exact absurd h (by simp)
    | some mx =>
      rw [hmn, hmx] at h
      exact ⟨mn, mx, rfl, rfl, (Except.ok.injEq _ _).mp h.symm⟩

theorem feed_time_bounds {daily minute tick : Feed} {mn mx : ℕ}
    (hmn : listMin ([daily, minute, tick].filterMap minTime) = some mn)
    (hmx : listMax ([daily, minute, tick].filterMap maxTime) = some mx)
    {df : Feed} (hdf : df = daily ∨ df = minute ∨ df = tick)
    {u : ℕ} (hu : u ∈ timesOf df) : mn ≤ u ∧ u ≤ mx := by
  have hne : df ≠ [] := by
    rintro rfl
    simp [timesOf] at hu
  obtain ⟨a, ha⟩ := minTime_isSome hne
  obtain ⟨b, hb⟩ := maxTime_isSome hne
  have hdfmem : df ∈ [daily, minute, tick] := by
    rcases hdf with rfl | rfl | rfl <;> simp
  have hamem : a ∈ [daily, minute, tick].filterMap minTime :=
    List.mem_filterMap.mpr ⟨df, hdfmem, ha⟩
  have hbmem : b ∈ [daily, minute, tick].filterMap maxTime :=
    List.mem_filterMap.mpr ⟨df, hdfmem, hb⟩
  exact ⟨le_trans (listMin_le hmn a hamem) (minTime_le ha u hu),
    le_trans (le_maxTime hb u hu) (le_listMax hmx b hbmem)⟩

theorem feed_time_mem_master {daily minute tick : Feed} {mn mx : ℕ}
    (hmn : listMin ([daily, minute, tick].filterMap minTime) = some mn)
    (hmx : listMax ([daily, minute, tick].filterMap maxTime) = some mx)
    {df : Feed} (hdf : df = daily ∨ df = minute ∨ df = tick)
    {u : ℕ} (hu : u ∈ timesOf df) : u ∈ minuteRange (floorD mn) (ceilD mx) := by
  obtain ⟨h1, h2⟩ := feed_time_bounds hmn hmx hdf hu
  exact mem_minuteRange.mpr ⟨le_trans (floorD_le mn) h1, le_trans h2 (le_ceilD mx)⟩

theorem foldl_min_mem (l : List ℕ) (a : ℕ) : l.foldl min a ∈ a :: l := by
  induction l generalizing a with
  | nil => simp
  | cons x xs ih =>
    have h := ih (min a x)
    rcases List.mem_cons.mp h with h1 | h1
    · rcases min_choice a x with h2 | h2 <;> rw [List.foldl_cons, h1, h2] <;> simp
    · exact List.mem_cons_of_mem _ (List.mem_cons_of_mem _ h1)

theorem foldl_max_mem (l : List ℕ) (a : ℕ) : l.foldl max a ∈ a :: l := by
  induction l generalizing a with
  | nil => simp
  | cons x xs ih =>
    have h := ih (max a x)
    rcases List.mem_cons.mp h with h1 | h1
    · rcases max_choice a x with h2 | h2 <;> rw [List.foldl_cons, h1, h2] <;> simp
    · exact List.mem_cons_of_mem _ (List.mem_cons_of_mem _ h1)

theorem minTime_mem {df : Feed} {a : ℕ} (h : minTime df = some a) : a ∈ timesOf df := by
  match df with
  | [] => simp [minTime] at h
  | r :: rs =>
    simp only [minTime, Option.some.injEq] at h
    subst h
    have : rs.foldl (fun a x => min a x.1) r.1 = (rs.map Prod.fst).foldl min r.1 := by
      rw [List.foldl_map]
    rw [timesOf, List.map_cons, this]
    exact foldl_min_mem _ _

theorem maxTime_mem {df : Feed} {b : ℕ} (h : maxTime df = some b) : b ∈ timesOf df := by
  match df with
  | [] => simp [maxTime] at h
  | r :: rs =>
    simp only [maxTime, Option.some.injEq] at h
    subst h
    have : rs.foldl (fun a x => max a x.1) r.1 = (rs.map Prod.fst).foldl max r.1 := by
      rw [List.foldl_map]
    rw [timesOf, List.map_cons, this]
    exact foldl_max_mem _ _

theorem combineAt_none_of_not_mem_master {daily minute tick : Feed} {mn mx : ℕ}
    (hmn : listMin ([daily, minute, tick].filterMap minTime) = some mn)
    (hmx : listMax ([daily, minute, tick].filterMap maxTime) = some mx)
    {t : ℕ} (htm : t ∉ minuteRange (floorD mn) (ceilD mx)) :
    combineAt daily minute tick t = none := by
  have hk : lookupTime tick t = none := by
    cases hk : lookupTime tick t with
    | none => rfl
    | some p =>
      exact absurd (feed_time_mem_master hmn hmx (Or.inr (Or.inr rfl))
        (List.mem_map_of_mem Prod.fst (mem_of_lookupTime hk))) htm
  have hm : lookupTime minute t = none := by
    cases hm : lookupTime minute t with
    | none => rfl
    | some p =>
      exact absurd (feed_time_mem_master hmn hmx (Or.inr (Or.inl rfl))
        (List.mem_map_of_mem Prod.fst (mem_of_lookupTime hm))) htm
  have hd : dailyAt daily t = none := by
    unfold dailyAt
    cases hmind : minTime daily with
    | none => rfl
    | some a =>
      cases hmaxd : maxTime daily with
      | none => rfl
      | some b =>
        have hab : ¬ (a ≤ t ∧ t ≤ b) := by
          rintro ⟨h1, h2⟩
          apply htm
          have ha := feed_time_bounds hmn hmx (Or.inl rfl) (minTime_mem hmind)
          have hb := feed_time_bounds hmn hmx (Or.inl rfl) (maxTime_mem hmaxd)
          exact mem_minuteRange.mpr ⟨le_trans (floorD_le mn) (le_trans ha.1 h1),
            le_trans (le_trans h2 hb.2) (le_ceilD mx)⟩
        simp [hab]
  unfold combineAt
  rw [hk, hm, hd]
  rfl

theorem unify_pairsAt {daily minute tick out : Feed}
    (hmnod : nodupTimes minute) (htnod : nodupTimes tick)
    (hok : unify_price_series daily minute tick = .ok out) (t : ℕ) :
    pairsAt t out = (combineAt daily minute tick t).toList.map (fun p => (t, p)) := by
  obtain ⟨mn, mx, hmn, hmx, hout⟩ := unify_ok_elim hok
  subst hout
  by_cases htm : t ∈ minuteRange (floorD mn) (ceilD mx)
  · have h1 := @rowsAt_mergeDaily (minuteRange (floorD mn) (ceilD mx)) (resample_ffill daily) t
      (nodup_minuteRange (floorD mn) (ceilD mx)) htm
    rw [daily_min_lookup] at h1
    have h2 := rowsAt_mergeMinute_single h1 rfl hmnod
    have h3 := rowsAt_mergeTick_single h2 rfl htnod
    rw [pairsAt_dropna, pairsAt_composePrice, h3]
    show dropna [(t, combineAt daily minute tick t)] =
      List.map (fun p => (t, p)) (combineAt daily minute tick t).toList
    cases combineAt daily minute tick t <;> rfl
  · have h1 := @rowsAt_mergeDaily_of_not_mem (minuteRange (floorD mn) (ceilD mx))
      (resample_ffill daily) t htm
    rw [pairsAt_dropna, pairsAt_composePrice,
      rowsAt_mergeTick_nil (rowsAt_mergeMinute_nil h1),
      combineAt_none_of_not_mem_master hmn hmx htm]
    rfl

theorem unify_lookup {daily minute tick out : Feed}
    (hmnod : nodupTimes minute) (htnod : nodupTimes tick)
    (hok : unify_price_series daily minute tick = .ok out) (t : ℕ) :
    lookupTime out t = combineAt daily minute tick t := by
  rw [lookupTime_eq_head_pairsAt, unify_pairsAt hmnod htnod hok t]
  cases combineAt daily minute tick t <;> rfl

theorem unify_mem {daily minute tick out : Feed}
    (hmnod : nodupTimes minute) (htnod : nodupTimes tick)
    (hok : unify_price_series daily minute tick = .ok out) {t : ℕ} {p : ℚ}
    (h : (t, p) ∈ out) : combineAt daily minute tick t = some p := by
  have hmem : (t, p) ∈ pairsAt t out := mem_pairsAt.mpr ⟨h, rfl⟩
  rw [unify_pairsAt hmnod htnod hok t] at hmem
  cases hv : combineAt daily minute tick t with
  | none => rw [hv] at hmem; simp at hmem
  | some q =>
    rw [hv] at hmem
    simp only [Option.toList, List.map_cons, List.map_nil, List.mem_singleton,
      Prod.mk.injEq] at hmem
    rw [hmem.2]

theorem dropna_map_some (t : ℕ) (l : Feed) :
    dropna (l.map (fun r => (t, some r.2))) = l.map (fun r => (t, r.2)) := by
  induction l with
  | nil => rfl
  | cons a as ih =>
    unfold dropna at ih ⊢
    simp only [List.map_cons, List.filterMap_cons, Option.map_some']
    rw [ih]

theorem unify_tick_dups {daily minute tick out : Feed}
    (hmnod : nodupTimes minute)
    (hok : unify_price_series daily minute tick = .ok out) {t : ℕ}
    (hne : pairsAt t tick ≠ []) :
    pairsAt t out = pairsAt t tick := by
  obtain ⟨mn, mx, hmn, hmx, hout⟩ := unify_ok_elim hok
  subst hout
  have htmem : t ∈ minuteRange (floorD mn) (ceilD mx) := by
    obtain ⟨r, hr⟩ : ∃ r, r ∈ pairsAt t tick := by
      cases h : pairsAt t tick with
      | nil => exact absurd h hne
      | cons a as => exact ⟨a, h ▸ List.mem_cons_self a as⟩
    have h1 := mem_pairsAt.mp hr
    exact feed_time_mem_master hmn hmx (Or.inr (Or.inr rfl))
      (h1.2 ▸ List.mem_map_of_mem Prod.fst h1.1)
  have h1 := @rowsAt_mergeDaily (minuteRange (floorD mn) (ceilD mx)) (resample_ffill daily) t
    (nodup_minuteRange (floorD mn) (ceilD mx)) htmem
  rw [daily_min_lookup] at h1
  have h2 := rowsAt_mergeMinute_single h1 rfl hmnod
  have h3 := rowsAt_mergeTick_dups h2 hne
  rw [pairsAt_dropna, pairsAt_composePrice, h3, List.map_map]
  show dropna ((pairsAt t tick).map (fun r => (t, some r.2))) = pairsAt t tick
  rw [dropna_map_some]
  have hcongr : ∀ r ∈ pairsAt t tick, ((t : ℕ), r.2) = id r := fun r hr =>
    Prod.ext (by simp [(pairsAt_fst hr)]) rfl
  rw [List.map_congr_left hcongr, List.map_id]

/-- Claim C1: for every slot of the unified fixed-resolution index, the unified
price equals the tick value when present at that slot, else the minute
value when present, else the (forward-filled) daily value; in particular,
at a timestamp where both a tick and a minute value are present, the
unified value equals the tick value, never the minute value.  Stated as:
the unified series' value at any timestamp equals the
tick-else-minute-else-daily composition at that timestamp.  The
sortedness/no-duplicate hypotheses restrict to inputs on which pandas does
not raise (per-timestamp uniqueness within each input). -/
theorem C1_unified_slot_precedence (daily minute tick out : Feed)
    (_hdsort : sortedTimes daily) (_hdnod : nodupTimes daily)
    (hmnod : nodupTimes minute) (htnod : nodupTimes tick)
    (hok : unify_price_series daily minute tick = .ok out) (t : ℕ) :
    lookupTime out t = combineAt daily minute tick t ∧
    (∀ pt pm : ℚ, (t, pt) ∈ tick → (t, pm) ∈ minute → lookupTime out t = some pt) := by
  refine ⟨unify_lookup hmnod htnod hok t, ?_⟩
  intro pt pm hkt hmt
  rw [unify_lookup hmnod htnod hok t]
  unfold combineAt
  rw [lookupTime_of_mem_nodup htnod hkt]
  rfl

/-- Witness for C1 at a concrete input where all three feeds cover the
same slot: the unified value is the tick value 30, not the minute 20 or
daily 10. -/
theorem C1_witness :
    lookupTime [((0:ℕ), (30:ℚ))] 0 = combineAt [(0, 10)] [(0, 20)] [(0, 30)] 0 ∧
    lookupTime [((0:ℕ), (30:ℚ))] 0 = some 30 :=
  ⟨(C1_unified_slot_precedence [(0, 10)] [(0, 20)] [(0, 30)] [(0, 30)]
      (by decide) (by decide) (by decide) (by decide) rfl 0).1,
   (C1_unified_slot_precedence [(0, 10)] [(0, 20)] [(0, 30)] [(0, 30)]
      (by decide) (by decide) (by decide) (by decide) rfl 0).2 30 20
      (by decide) (by decide)⟩

/-- Claim C5: the claim says unification succeeds for any subset of empty feeds
and returns an empty series when all three are empty; the code instead
raises at the all-empty input: Python min() over the empty generator of
per-feed minima raises ValueError (modelled as Except.error).  This
theorem evaluates the code at the failing input. -/
theorem C5_all_empty_raises :
    unify_price_series [] [] [] = Except.error "min() arg is an empty sequence" := rfl

/-- Claim C7 counterexample: a tick input with two rows at the same timestamp is
not resolved by keeping the last value: both duplicate rows survive into
the unified output (which would be [(0, 2)] alone at that slot under
keep-last resolution). -/
theorem C7_counterexample :
    unify_price_series [((0:ℕ), (10:ℚ))] [] [(0, 1), (0, 2)] = Except.ok [(0, 1), (0, 2)] ∧
    ([((0:ℕ), (1:ℚ)), (0, 2)] : Feed) ≠ [(0, 2)] :=
  ⟨rfl, by decide⟩

/-- Claim C7 amended: duplicate timestamps within an input are NOT resolved by
keeping the last value; the left-merge keeps every duplicate, so at any
slot where the tick input has rows, the unified series contains exactly
those rows in input order (all duplicate values retained).  Hypotheses:
the daily input has a valid (sorted, duplicate-free) index and the minute
input has unique timestamps; unification succeeded. -/
theorem C7_duplicates_retained (daily minute tick out : Feed)
    (_hdsort : sortedTimes daily) (_hdnod : nodupTimes daily) (hmnod : nodupTimes minute)
    (hok : unify_price_series daily minute tick = .ok out) (t : ℕ)
    (hne : pairsAt t tick ≠ []) :
    pairsAt t out = pairsAt t tick :=
  unify_tick_dups hmnod hok hne

/-- Witness for C7 (amended) at the duplicate-tick input: both duplicate
rows appear at slot 0 of the unified output. -/
theorem C7_witness :
    pairsAt 0 ([((0:ℕ), (1:ℚ)), (0, 2)] : Feed) = pairsAt 0 ([(0, 1), (0, 2)] : Feed) :=
  C7_duplicates_retained [(0, 10)] [] [(0, 1), (0, 2)] [(0, 1), (0, 2)]
    (by decide) (by decide) (by decide) rfl 0 (by decide)

/-- Claim C10: every row of the unified series carries a present price that some
source actually contributed at that slot under the precedence rule — the
dropna step removes exactly the slots where no source provided a value, so
no absent-price row survives into the output. -/
theorem C10_no_absent_price (daily minute tick out : Feed)
    (_hdsort : sortedTimes daily) (_hdnod : nodupTimes daily)
    (hmnod : nodupTimes minute) (htnod : nodupTimes tick)
    (hok : unify_price_series daily minute tick = .ok out) :
    ∀ r ∈ out, combineAt daily minute tick r.1 = some r.2 := by
  intro r hr
  exact unify_mem hmnod htnod hok hr

/-- Witness for C10: with only a daily input, the single output row's
price is the daily contribution. -/
theorem C10_witness : combineAt [((0:ℕ), (5:ℚ))] [] [] 0 = some 5 :=
  C10_no_absent_price [(0, 5)] [] [] [(0, 5)]
    (by decide) (by decide) (by decide) (by decide) rfl (0, 5) (by decide)

/-- Claim C9: the presentation shell rejects a BUY whose cost (amount times
latest price) exceeds the cash balance and rejects a SELL whose amount
exceeds the holdings, leaving the balances and ledger unchanged on
rejection (the state is returned untouched, no entry is appended). -/
theorem C9_trade_rejection (s : SessionState) (amt latest_price : ℚ) (ts : String) :
    (amt * latest_price > s.cash_balance → buy_handler s amt latest_price ts = (s, false)) ∧
    (amt > s.wpu_balance → sell_handler s amt latest_price ts = (s, false)) := by
  constructor
  · intro h
    unfold buy_handler
    rw [if_pos h]
  · intro h
    unfold sell_handler
    rw [if_pos h]

/-- Witness for C9: buying 200 WPU at price 1 with only 100 cash is
rejected, and selling 200 WPU with 0 holdings is rejected, both leaving
the session state unchanged. -/
theorem C9_witness :
    buy_handler ⟨0, 100, []⟩ 200 1 "t0" = (⟨0, 100, []⟩, false) ∧
    sell_handler ⟨0, 100, []⟩ 200 1 "t0" = (⟨0, 100, []⟩, false) :=
  ⟨(C9_trade_rejection ⟨0, 100, []⟩ 200 1 "t0").1 (by norm_num),
   (C9_trade_rejection ⟨0, 100, []⟩ 200 1 "t0").2 (by norm_num)⟩

/-- Claim C8 counterexample: calculate_wpu_price is not pure in its inputs —
with a timezone-naive exchange frame and a valid zone argument ("UTC", so
tz_localize succeeds and the assignment executes), the frame the caller
passed in comes back changed: its datetime column has been localized in
place. -/
theorem C8_counterexample :
    (calculate_wpu_price ⟨none, ["USD"], [(0, [("USD", some 1)])]⟩
        ⟨none, ["USD"], [(0, [("USD", some 100)])]⟩ none "UTC").2.1
      ≠ ⟨none, ["USD"], [(0, [("USD", some 1)])]⟩ := by
  decide

/-- Claim C8 amended: unify_price_series and the range filters are pure
transforms of their inputs; calculate_wpu_price leaves its input frames
unchanged when both datetime columns are already timezone-aware, but
localizes a naive datetime column in place, mutating the caller's
frame (see the counterexample). -/
theorem C8_pricer_inputs_unchanged_when_aware (exchange_df weights_df : CFrame)
    (currencies : Option (List String)) (tz : String)
    (hex : exchange_df.tz ≠ none) (hw : weights_df.tz ≠ none) :
    (calculate_wpu_price exchange_df weights_df currencies tz).2 = (exchange_df, weights_df) := by
  unfold calculate_wpu_price localizeIfNaive
  rw [if_neg hex, if_neg hw]

/-- Witness for C8 (amended): with both frames timezone-aware, the
pricer's post-call input frames equal the originals. -/
theorem C8_witness :
    (calculate_wpu_price ⟨some "UTC", ["USD"], [(0, [("USD", some 1)])]⟩
        ⟨some "UTC", ["USD"], [(0, [("USD", some 100)])]⟩ none "UTC").2
      = (⟨some "UTC", ["USD"], [(0, [("USD", some 1)])]⟩,
         ⟨some "UTC", ["USD"], [(0, [("USD", some 100)])]⟩) :=
  C8_pricer_inputs_unchanged_when_aware
    ⟨some "UTC", ["USD"], [(0, [("USD", some 1)])]⟩
    ⟨some "UTC", ["USD"], [(0, [("USD", some 100)])]⟩ none "UTC"
    (by decide) (by decide)

/-- Claim C6 counterexample: filter_by_zoom anchors its window at the
wall-clock current time, so the same series with the same label yields
different sub-series at different invocation times (here day-20 data is
returned when now is day 20, and nothing when now is day ~69). -/
theorem C6_counterexample :
    filter_by_zoom [((14400:ℕ), (1:ℚ)), (28800, 2)] "1d" 28800 = Except.ok [(28800, 2)] ∧
    filter_by_zoom [((14400:ℕ), (1:ℚ)), (28800, 2)] "1d" 100000 = Except.ok [] ∧
    ([((28800:ℕ), (2:ℚ))] : Feed) ≠ [] :=
  ⟨rfl, rfl, by decide⟩

/-- Claim C6 amended: filter_by_range is anchored at the series' own maximum
datetime — it equals the explicit-reference filter of the spec contract
applied at maxTime df — and is therefore deterministic over a fixed
dataset; filter_by_zoom instead anchors at the wall-clock current time,
so its result varies with the invocation time (see the counterexample). -/
theorem C6_range_anchored_at_series_max (df : Feed) (range_label : String) (now : ℕ)
    (h : maxTime df = some now) :
    filter_by_range df range_label = filter_by_range_ref df range_label now := by
  unfold filter_by_range filter_by_range_ref
  rw [h]

/-- Witness for C6 (amended) on a two-row series: the reference is the
series maximum, day 20. -/
theorem C6_witness :
    filter_by_range [((14400:ℕ), (1:ℚ)), (28800, 2)] "1d"
      = filter_by_range_ref [((14400:ℕ), (1:ℚ)), (28800, 2)] "1d" 28800 :=
  C6_range_anchored_at_series_max [(14400, 1), (28800, 2)] "1d" 28800 (by decide)

/-- Claim C2 counterexample: filter_by_range computes the "1m" window start by a
fixed 30-day subtraction, not calendar-unit subtraction: with the series
maximum (reference) at 2024-03-31, the row at 2024-02-29 — the last valid
day of February, which calendar-unit subtraction (monthsAgo, the
pd.DateOffset semantics used by filter_by_zoom) designates as the start —
is excluded; the window starts at 2024-03-01 instead. -/
theorem C2_counterexample :
    filter_by_range
        [(civilToMin 2024 2 29, (1:ℚ)), (civilToMin 2024 3 1, 2), (civilToMin 2024 3 31, 3)]
        "1m"
      = [(civilToMin 2024 3 1, 2), (civilToMin 2024 3 31, 3)] ∧
    monthsAgo 1 (civilToMin 2024 3 31) = civilToMin 2024 2 29 ∧
    civilToMin 2024 2 29 < civilToMin 2024 3 1 := by
  refine ⟨?_, by decide, by decide⟩
  rfl

/-- Claim C2 amended: only filter_by_zoom obtains the month-count and
year-count window starts by calendar-unit subtraction (pd.DateOffset,
clamped at month-end); filter_by_range instead uses fixed-duration
windows — 30, 90 and 182 days for the "1m", "3m", "6m" labels and 365*N
days for the "1y", "3y", "5y", "10y" labels. -/
theorem C2_month_label_semantics :
    (∀ (df : Feed) (zoom : String) (n now : ℕ),
      strEndsWith zoom "d" = false → strEndsWith zoom "w" = false →
      strEndsWith zoom "m" = true → parseNat (strDropLast zoom) = some n →
      filter_by_zoom df zoom now = .ok (df.filter (fun r => decide (monthsAgo n now ≤ r.1)))) ∧
    (∀ (df : Feed) (zoom : String) (n now : ℕ),
      strEndsWith zoom "d" = false → strEndsWith zoom "w" = false →
      strEndsWith zoom "m" = false → strEndsWith zoom "y" = true →
      parseNat (strDropLast zoom) = some n →
      filter_by_zoom df zoom now = .ok (df.filter (fun r => decide (yearsAgo n now ≤ r.1)))) ∧
    (∀ (df : Feed) (now : ℕ), maxTime df = some now →
      filter_by_range df "1m" = df.filter (fun r =>
        decide (now - 30 * minutesPerDay ≤ r.1) && decide (r.1 ≤ now)) ∧
      filter_by_range df "3m" = df.filter (fun r =>
        decide (now - 90 * minutesPerDay ≤ r.1) && decide (r.1 ≤ now)) ∧
      filter_by_range df "6m" = df.filter (fun r =>
        decide (now - 182 * minutesPerDay ≤ r.1) && decide (r.1 ≤ now)) ∧
      filter_by_range df "1y" = df.filter (fun r =>
        decide (now - 365 * minutesPerDay ≤ r.1) && decide (r.1 ≤ now)) ∧
      filter_by_range df "3y" = df.filter (fun r =>
        decide (now - 365 * 3 * minutesPerDay ≤ r.1) && decide (r.1 ≤ now)) ∧
      filter_by_range df "5y" = df.filter (fun r =>
        decide (now - 365 * 5 * minutesPerDay ≤ r.1) && decide (r.1 ≤ now)) ∧
      filter_by_range df "10y" = df.filter (fun r =>
        decide (now - 365 * 10 * minutesPerDay ≤ r.1) && decide (r.1 ≤ now))) := by
  refine ⟨?_, ?_, ?_⟩
  · intro df zoom n now h1 h2 h3 h4
    by_cases hdf : df = []
    · subst hdf
      simp [filter_by_zoom]
    · unfold filter_by_zoom
      rw [if_neg (by simpa [List.isEmpty_iff] using hdf), h1, h2, h3, h4]
      rfl
  · intro df zoom n now h1 h2 h3 h4 h5
    by_cases hdf : df = []
    · subst hdf
      simp [filter_by_zoom]
    · unfold filter_by_zoom
      rw [if_neg (by simpa [List.isEmpty_iff] using hdf), h1, h2, h3, h4, h5]
      rfl
  · intro df now h
    refine ⟨?_, ?_, ?_, ?_, ?_, ?_, ?_⟩ <;> (unfold filter_by_range; rw [h]; rfl)

/-- Witness for C2 (amended): the zoom filter at "1m" keeps exactly the
rows at or after the calendar-subtracted month start and at "2y" the rows
at or after the calendar-subtracted year start, while the range filter at
"6m" uses the fixed 182-day window. -/
theorem C2_witness :
    filter_by_zoom [(civilToMin 2024 2 29, (1:ℚ))] "1m" (civilToMin 2024 3 31)
      = .ok ([(civilToMin 2024 2 29, (1:ℚ))].filter (fun r =>
          decide (monthsAgo 1 (civilToMin 2024 3 31) ≤ r.1))) ∧
    filter_by_zoom [(civilToMin 2022 2 28, (1:ℚ))] "2y" (civilToMin 2024 2 29)
      = .ok ([(civilToMin 2022 2 28, (1:ℚ))].filter (fun r =>
          decide (yearsAgo 2 (civilToMin 2024 2 29) ≤ r.1))) ∧
    filter_by_range [((14400:ℕ), (1:ℚ))] "6m"
      = [((14400:ℕ), (1:ℚ))].filter (fun r =>
          decide (14400 - 182 * minutesPerDay ≤ r.1) && decide (r.1 ≤ 14400)) :=
  ⟨C2_month_label_semantics.1 [(civilToMin 2024 2 29, (1:ℚ))] "1m" 1 (civilToMin 2024 3 31)
      (by decide) (by decide) (by decide) (by decide),
   C2_month_label_semantics.2.1 [(civilToMin 2022 2 28, (1:ℚ))] "2y" 2 (civilToMin 2024 2 29)
      (by decide) (by decide) (by decide) (by decide) (by decide),
   (C2_month_label_semantics.2.2 [(14400, 1)] 14400 (by decide)).2.2.1⟩

/-- Generic per-timestamp lookup in a timestamped row list (first row with
the given datetime). -/
def lookupAt {α : Type} (l : List (ℕ × α)) (t : ℕ) : Option α :=
  (l.find? (fun r => r.1 == t)).map Prod.snd

theorem lookupAt_eq_head_pairsAt {α : Type} (l : List (ℕ × α)) (t : ℕ) :
    lookupAt l t = (pairsAt t l).head?.map Prod.snd := by
  induction l with
  | nil => rfl
  | cons r rs ih =>
    by_cases h : r.1 = t
    · simp [lookupAt, pairsAt, List.find?, List.filter, h]
    · simp only [lookupAt, pairsAt, List.find?, List.filter] at ih ⊢
      rw [show (r.1 == t) = false by simpa using h]
      exact ih

theorem lookupAt_of_mem_nodup {α : Type} {l : List (ℕ × α)} (hn : nodupTimes l)
    {t : ℕ} {a : α} (h : (t, a) ∈ l) : lookupAt l t = some a := by
  rcases pairsAt_of_nodup hn t with h0 | ⟨q, hq⟩
  · exact absurd (mem_pairsAt.mpr ⟨h, rfl⟩) (by simp [h0])
  · have hmem : (t, a) ∈ pairsAt t l := mem_pairsAt.mpr ⟨h, rfl⟩
    rw [hq] at hmem
    simp only [List.mem_singleton, Prod.mk.injEq] at hmem
    rw [lookupAt_eq_head_pairsAt, hq, hmem.2]
    rfl

theorem insertRow_perm {α : Type} (p : ℕ × α) (l : List (ℕ × α)) :
    (insertRow p l).Perm (p :: l) := by
  induction l with
  | nil => exact List.Perm.refl _
  | cons q qs ih =>
    unfold insertRow
    by_cases h : p.1 < q.1
    · rw [if_pos h]
    · rw [if_neg h]
      exact (ih.cons q).trans (List.Perm.swap p q qs)

theorem sortRows_perm {α : Type} (l : List (ℕ × α)) : (sortRows l).Perm l := by
  induction l with
  | nil => exact List.Perm.refl _
  | cons p ps ih =>
    exact (insertRow_perm p (sortRows ps)).trans (ih.cons p)

theorem insertRow_sorted {α : Type} {p : ℕ × α} {l : List (ℕ × α)}
    (h : sortedTimes l) : sortedTimes (insertRow p l) := by
  induction l with
  | nil => simp [insertRow, sortedTimes]
  | cons q qs ih =>
    unfold sortedTimes at h ih ⊢
    rcases List.pairwise_cons.mp h with ⟨hq, hqs⟩
    unfold insertRow
    by_cases hlt : p.1 < q.1
    · rw [if_pos hlt]
      refine List.pairwise_cons.mpr ⟨?_, h⟩
      intro x hx
      rcases List.mem_cons.mp hx with rfl | hx2
      · omega
      · exact le_trans (le_of_lt hlt) (hq x hx2)
    · rw [if_neg hlt]
      refine List.pairwise_cons.mpr ⟨?_, ih hqs⟩
      intro x hx
      have hx3 : x ∈ p :: qs := (insertRow_perm p qs).mem_iff.mp hx
      rcases List.mem_cons.mp hx3 with rfl | hx4
      · omega
      · exact hq x hx4

theorem sortRows_sorted {α : Type} (l : List (ℕ × α)) : sortedTimes (sortRows l) := by
  induction l with
  | nil => simp [sortRows, sortedTimes]
  | cons p ps ih => exact insertRow_sorted ih

theorem reindexFfillAt_eq_getLast {α : Type} (l : List (ℕ × α)) (t : ℕ) :
    reindexFfillAt l t = ((l.filter (fun r => decide (r.1 ≤ t))).getLast?).map Prod.snd := by
  have key : ∀ (acc : Option α),
      l.foldl (fun acc r => if r.1 ≤ t then some r.2 else acc) acc =
        match (l.filter (fun r => decide (r.1 ≤ t))).getLast? with
        | some r => some r.2
        | none => acc := by
    induction l with
    | nil => intro acc; rfl
    | cons r rs ih =>
      intro acc
      rw [List.foldl_cons]
      by_cases h : r.1 ≤ t
      · rw [if_pos h, ih, List.filter_cons_of_pos (by simpa using h)]
        cases hrest : (rs.filter (fun r => decide (r.1 ≤ t))).getLast? with
        | none =>
          rw [List.getLast?_eq_none_iff.mp hrest]
          rfl
        | some x =>
          have hne : rs.filter (fun r => decide (r.1 ≤ t)) ≠ [] := by
            intro hnil
            rw [hnil] at hrest
            simp at hrest
          cases hcase : rs.filter (fun r => decide (r.1 ≤ t)) with
          | nil => exact absurd hcase hne
          | cons y ys =>
            rw [hcase] at hrest
            rw [List.getLast?_cons_cons, hrest]
      · rw [if_neg h, ih, List.filter_cons_of_neg (by simpa using h)]
  rw [reindexFfillAt, key none]
  cases (l.filter (fun r => decide (r.1 ≤ t))).getLast? <;> rfl

theorem reindexFfillAt_none_of_all_gt {α : Type} {l : List (ℕ × α)} {t : ℕ}
    (h : ∀ r ∈ l, ¬ r.1 ≤ t) : reindexFfillAt l t = none := by
  rw [reindexFfillAt_eq_getLast]
  have : l.filter (fun r => decide (r.1 ≤ t)) = [] :=
    List.filter_eq_nil_iff.mpr (fun r hr => by simpa using h r hr)
  rw [this]
  rfl

theorem sorted_getLast_max {α : Type} {l : List (ℕ × α)} (hs : sortedTimes l)
    (hne : l ≠ []) : ∃ y, l.getLast? = some y ∧ y ∈ l ∧ ∀ x ∈ l, x.1 ≤ y.1 := by
  induction l with
  | nil => exact absurd rfl hne
  | cons a as ih =>
    unfold sortedTimes at hs ih
    rcases List.pairwise_cons.mp hs with ⟨ha, has⟩
    cases hcase : as with
    | nil =>
      subst hcase
      refine ⟨a, by simp, List.mem_singleton.mpr rfl, ?_⟩
      intro x hx
      have hxa : x = a := by simpa using hx
      rw [hxa]
    | cons b bs =>
      subst hcase
      obtain ⟨y, hy1, hy2, hy3⟩ := ih has (by simp)
      refine ⟨y, by rw [List.getLast?_cons_cons]; exact hy1, List.mem_cons_of_mem a hy2, ?_⟩
      intro x hx
      rcases List.mem_cons.mp hx with rfl | hx2
      · exact le_trans (ha y hy2) (le_refl _)
      · exact hy3 x hx2

theorem nodupTimes_eq_of_fst {α : Type} {l : List (ℕ × α)} (hn : nodupTimes l)
    {a b : ℕ × α} (ha : a ∈ l) (hb : b ∈ l) (hab : a.1 = b.1) : a = b :=
  List.inj_on_of_nodup_map hn ha hb hab

theorem reindexFfillAt_asof {α : Type} {rows : List (ℕ × α)} {t t0 : ℕ} {cs : α}
    (hnod : nodupTimes rows) (hmem : (t0, cs) ∈ rows) (hle : t0 ≤ t)
    (hmax : ∀ r ∈ rows, r.1 ≤ t → r.1 ≤ t0) :
    reindexFfillAt (sortRows rows) t = some cs := by
  have hperm := sortRows_perm rows
  have hsorted := sortRows_sorted rows
  rw [reindexFfillAt_eq_getLast]
  have hys_sorted : sortedTimes ((sortRows rows).filter (fun r => decide (r.1 ≤ t))) :=
    List.Pairwise.filter _ hsorted
  have hmem_ys : (t0, cs) ∈ (sortRows rows).filter (fun r => decide (r.1 ≤ t)) :=
    List.mem_filter.mpr ⟨hperm.mem_iff.mpr hmem, by simpa using hle⟩
  obtain ⟨y, hy_last, hy_mem, hy_max⟩ :=
    sorted_getLast_max hys_sorted (List.ne_nil_of_mem hmem_ys)
  have hy_filter := List.mem_filter.mp hy_mem
  have hy_in_rows : y ∈ rows := hperm.mem_iff.mp hy_filter.1
  have hy_le_t : y.1 ≤ t := by simpa using hy_filter.2
  have heq : y.1 = t0 := le_antisymm (hmax y hy_in_rows hy_le_t) (hy_max (t0, cs) hmem_ys)
  have hy_eq : y = (t0, cs) := nodupTimes_eq_of_fst hnod hy_in_rows hmem heq
  rw [hy_last, hy_eq]
  rfl

theorem oAdd_none (a : Option ℚ) : oAdd a none = none := by
  cases a <;> rfl

theorem priceFold_all_some (excols wcols : List String) (term : String → Option ℚ)
    (v : String → ℚ) (curs : List String)
    (h : ∀ c ∈ curs, (c ∈ excols ∧ c ∈ wcols) ∧ term c = some (v c)) :
    ∀ q : ℚ, curs.foldl (fun acc c =>
        if c ∈ excols ∧ c ∈ wcols then oAdd acc (term c) else acc) (some q)
      = some (q + (curs.map v).sum) := by
  induction curs with
  | nil => intro q; simp
  | cons c cs ih =>
    intro q
    obtain ⟨ht, hv⟩ := h c (List.mem_cons_self c cs)
    rw [List.foldl_cons, if_pos ht, hv,
      show oAdd (some q) (some (v c)) = some (q + v c) from rfl,
      ih (fun x hx => h x (List.mem_cons_of_mem c hx)) (q + v c),
      List.map_cons, List.sum_cons, add_assoc]

theorem priceFold_from_none (excols wcols : List String) (term : String → Option ℚ)
    (curs : List String) :
    curs.foldl (fun acc c =>
        if c ∈ excols ∧ c ∈ wcols then oAdd acc (term c) else acc) none = none := by
  induction curs with
  | nil => rfl
  | cons c cs ih =>
    rw [List.foldl_cons]
    by_cases h : c ∈ excols ∧ c ∈ wcols
    · rw [if_pos h]
      cases term c <;> exact ih
    · rw [if_neg h]
      exact ih

theorem priceFold_none (excols wcols : List String) (term : String → Option ℚ)
    (curs : List String) (h : ∃ c ∈ curs, (c ∈ excols ∧ c ∈ wcols) ∧ term c = none) :
    ∀ acc : Option ℚ, curs.foldl (fun acc c =>
        if c ∈ excols ∧ c ∈ wcols then oAdd acc (term c) else acc) acc = none := by
  induction curs with
  | nil =>
    obtain ⟨c, hc, _⟩ := h
    simp at hc
  | cons c cs ih =>
    intro acc
    rw [List.foldl_cons]
    obtain ⟨c0, hc0mem, hc0t, hc0v⟩ := h
    rcases List.mem_cons.mp hc0mem with rfl | hc0cs
    · rw [if_pos hc0t, hc0v, oAdd_none]
      exact priceFold_from_none excols wcols term cs
    · exact ih ⟨c0, hc0cs, hc0t, hc0v⟩ _

theorem localizeIfNaive_id {f : CFrame} {tz : String} (h : f.tz ≠ none) :
    localizeIfNaive f tz = f := by
  unfold localizeIfNaive
  rw [if_neg h]

theorem calculate_result_eq (exchange_df weights_df : CFrame) (curs : List String)
    (tz : String) (hex : exchange_df.tz ≠ none) (hw : weights_df.tz ≠ none) :
    (calculate_wpu_price exchange_df weights_df (some curs) tz).1 =
      exchange_df.rows.map (fun r =>
        (r.1, curs.foldl (fun acc c =>
          if c ∈ exchange_df.cols ∧ c ∈ weights_df.cols then
            oAdd acc (oDiv100 (oMul (cellVal r.2 c)
              ((reindexFfillAt (sortRows weights_df.rows) r.1).bind (fun cs => cellVal cs c))))
          else acc) (some 0))) := by
  unfold calculate_wpu_price
  rw [localizeIfNaive_id hex, localizeIfNaive_id hw]
  rfl

theorem calculate_lookup (exchange_df weights_df : CFrame) (curs : List String)
    (tz : String) (hex : exchange_df.tz ≠ none) (hw : weights_df.tz ≠ none)
    (hnod : nodupTimes exchange_df.rows) {t : ℕ} {cells : Cells}
    (hrow : (t, cells) ∈ exchange_df.rows) :
    lookupAt (calculate_wpu_price exchange_df weights_df (some curs) tz).1 t
      = some (curs.foldl (fun acc c =>
          if c ∈ exchange_df.cols ∧ c ∈ weights_df.cols then
            oAdd acc (oDiv100 (oMul (cellVal cells c)
              ((reindexFfillAt (sortRows weights_df.rows) t).bind (fun cs => cellVal cs c))))
          else acc) (some 0)) := by
  rw [calculate_result_eq exchange_df weights_df curs tz hex hw]
  have hnodres : nodupTimes (exchange_df.rows.map (fun r =>
      (r.1, curs.foldl (fun acc c =>
        if c ∈ exchange_df.cols ∧ c ∈ weights_df.cols then
          oAdd acc (oDiv100 (oMul (cellVal r.2 c)
            ((reindexFfillAt (sortRows weights_df.rows) r.1).bind (fun cs => cellVal cs c))))
        else acc) (some 0)))) := by
    unfold nodupTimes at hnod ⊢
    rw [List.map_map]
    exact hnod
  exact lookupAt_of_mem_nodup hnodres (List.mem_map_of_mem _ hrow)

/-- Claim C3: at a timestamp where every selected currency has a present rate and
an applicable weight row provides a present weight for it, the composite
price equals the sum over the selected currencies of
rate * weight / 100.  The timezone hypotheses pin both frames to the
aware case (no localization), and exchange timestamps are unique so "the
price at that timestamp" is well defined. -/
theorem C3_composite_price (exchange_df weights_df : CFrame) (curs : List String)
    (tz : String) (t : ℕ) (cells wcells : Cells) (rate weight : String → ℚ)
    (hex : exchange_df.tz ≠ none) (hw : weights_df.tz ≠ none)
    (hnod : nodupTimes exchange_df.rows)
    (hrow : (t, cells) ∈ exchange_df.rows)
    (happ : reindexFfillAt (sortRows weights_df.rows) t = some wcells)
    (hcs : ∀ c ∈ curs, (c ∈ exchange_df.cols ∧ c ∈ weights_df.cols) ∧
      cellVal cells c = some (rate c) ∧ cellVal wcells c = some (weight c)) :
    lookupAt (calculate_wpu_price exchange_df weights_df (some curs) tz).1 t
      = some (some ((curs.map (fun c => rate c * weight c / 100)).sum)) := by
  rw [calculate_lookup exchange_df weights_df curs tz hex hw hnod hrow]
  congr 1
  have hterm : ∀ c ∈ curs, (c ∈ exchange_df.cols ∧ c ∈ weights_df.cols) ∧
      oDiv100 (oMul (cellVal cells c)
        ((reindexFfillAt (sortRows weights_df.rows) t).bind (fun cs => cellVal cs c)))
      = some (rate c * weight c / 100) := by
    intro c hc
    obtain ⟨htest, hr, hw2⟩ := hcs c hc
    refine ⟨htest, ?_⟩
    rw [happ]
    show oDiv100 (oMul (cellVal cells c) (cellVal wcells c)) = _
    rw [hr, hw2]
    rfl
  rw [priceFold_all_some exchange_df.cols weights_df.cols _ _ curs hterm 0, zero_add]

/-- Witness for C3 at the spec's example: rates USD = 1.10, EUR = 0.95
with weights USD = 60, EUR = 40 give a composite of 1.10*0.60 + 0.95*0.40
= 1.04. -/
theorem C3_witness :
    lookupAt (calculate_wpu_price
        ⟨some "UTC", ["USD", "EUR"], [(100, [("USD", some (11/10)), ("EUR", some (19/20))])]⟩
        ⟨some "UTC", ["USD", "EUR"], [(0, [("USD", some 60), ("EUR", some 40)])]⟩
        (some ["USD", "EUR"]) "UTC").1 100
      = some (some ((["USD", "EUR"].map (fun c =>
          (if c = "USD" then (11/10 : ℚ) else 19/20) *
          (if c = "USD" then (60 : ℚ) else 40) / 100)).sum)) :=
  C3_composite_price
    ⟨some "UTC", ["USD", "EUR"], [(100, [("USD", some (11/10)), ("EUR", some (19/20))])]⟩
    ⟨some "UTC", ["USD", "EUR"], [(0, [("USD", some 60), ("EUR", some 40)])]⟩
    ["USD", "EUR"] "UTC" 100
    [("USD", some (11/10)), ("EUR", some (19/20))]
    [("USD", some 60), ("EUR", some 40)]
    (fun c => if c = "USD" then 11/10 else 19/20)
    (fun c => if c = "USD" then 60 else 40)
    (by decide) (by decide) (by decide) (List.mem_singleton.mpr rfl) rfl
    (by
      intro c hc
      simp only [List.mem_cons, List.mem_singleton] at hc
      rcases hc with rfl | rfl | hc
      · exact ⟨⟨by decide, by decide⟩, rfl, rfl⟩
      · exact ⟨⟨by decide, by decide⟩, rfl, rfl⟩
      · simp at hc)

/-- The spec example's sum evaluates to 1.04 (26/25). -/
theorem C3_example_value :
    ((["USD", "EUR"].map (fun c =>
        (if c = "USD" then (11/10 : ℚ) else 19/20) *
        (if c = "USD" then (60 : ℚ) else 40) / 100)).sum) = 26/25 := by
  simp
  norm_num

/-- Claim C4: (1) for a rate timestamp strictly before every weight row, the
pricer's output at that timestamp is an absent price (NaN, modelled as
none) — present as a gap, never a number computed with zero weights —
provided at least one selected currency is a column of both frames so the
NaN weight actually enters the sum; (2) for any timestamp at or after
some weight row, the applicable row the pricer uses (forward-fill reindex
over the sorted weights) is precisely the most recent row whose
effective date is not after the timestamp. -/
theorem C4_pre_first_weight_gap (exchange_df weights_df : CFrame) (curs : List String)
    (tz : String) (t : ℕ) (cells : Cells)
    (hex : exchange_df.tz ≠ none) (hw : weights_df.tz ≠ none)
    (hnod : nodupTimes exchange_df.rows) (hrow : (t, cells) ∈ exchange_df.rows) :
    ((∀ w ∈ weights_df.rows, t < w.1) →
      (∃ c ∈ curs, c ∈ exchange_df.cols ∧ c ∈ weights_df.cols) →
      lookupAt (calculate_wpu_price exchange_df weights_df (some curs) tz).1 t = some none) ∧
    (∀ t0 wcells, nodupTimes weights_df.rows → (t0, wcells) ∈ weights_df.rows → t0 ≤ t →
      (∀ w ∈ weights_df.rows, w.1 ≤ t → w.1 ≤ t0) →
      reindexFfillAt (sortRows weights_df.rows) t = some wcells) := by
  constructor
  · intro hpre hcur
    rw [calculate_lookup exchange_df weights_df curs tz hex hw hnod hrow]
    congr 1
    have hwnone : reindexFfillAt (sortRows weights_df.rows) t = none := by
      apply reindexFfillAt_none_of_all_gt
      intro r hr
      have hmem : r ∈ weights_df.rows := (sortRows_perm weights_df.rows).mem_iff.mp hr
      have := hpre r hmem
      omega
    obtain ⟨c0, hc0, htest⟩ := hcur
    refine priceFold_none exchange_df.cols weights_df.cols _ curs ⟨c0, hc0, htest, ?_⟩ (some 0)
    rw [hwnone]
    show oDiv100 (oMul (cellVal cells c0) none) = none
    cases cellVal cells c0 <;> rfl
  · intro t0 wcells hwnod hmem hle hmax
    exact reindexFfillAt_asof hwnod hmem hle hmax

/-- Witness for C4: with the only weight row at time 50000, the rate row
at time 0 yields an absent composite price, and at time 100000 the
applicable row is the one at 50000. -/
theorem C4_witness :
    lookupAt (calculate_wpu_price
        ⟨some "UTC", ["USD"], [(0, [("USD", some 1)])]⟩
        ⟨some "UTC", ["USD"], [(50000, [("USD", some 100)])]⟩
        (some ["USD"]) "UTC").1 0 = some none ∧
    reindexFfillAt (sortRows ([(50000, [("USD", some 100)])] : List (ℕ × Cells))) 100000
      = some [("USD", some 100)] :=
  ⟨(C4_pre_first_weight_gap
      ⟨some "UTC", ["USD"], [(0, [("USD", some 1)])]⟩
      ⟨some "UTC", ["USD"], [(50000, [("USD", some 100)])]⟩
      ["USD"] "UTC" 0 [("USD", some 1)]
      (by decide) (by decide) (by decide) (by decide)).1
      (by decide) ⟨"USD", by decide, by decide⟩,
   (C4_pre_first_weight_gap
      ⟨some "UTC", ["USD"], [(100000, [("USD", some 1)])]⟩
      ⟨some "UTC", ["USD"], [(50000, [("USD", some 100)])]⟩
      ["USD"] "UTC" 100000 [("USD", some 1)]
      (by decide) (by decide) (by decide) (by decide)).2
      50000 [("USD", some 100)] (by decide) (by decide) (by decide)
      (fun w hw hle => by
        have : w = (50000, [("USD", some 100)]) := by simpa using hw
        rw [this])⟩

end Wpu
